import Mathlib

/-!
# PawPal task scheduler — shallow embedding and verification

This file embeds the core of `pawpal_system.py` (Task / Pet / Owner /
Scheduler) into Lean and proves the behavioural properties stated in the
project's specification.

Modelling conventions:
* Python `datetime` values are naive local timestamps; they are modelled as
  `Int` minutes since an epoch.  `timedelta(days=1)` is 1440 minutes,
  `timedelta(weeks=1)` is 10080 minutes, `timedelta(days=30)` is 43200
  minutes, and `datetime.date()` (the calendar day) is floor division of the
  timestamp by 1440.
* Python `int` is modelled as `Int`.
* In-place mutation is modelled by explicit state passing: methods that
  mutate the Scheduler return the updated `Scheduler`; `Task.mark_complete`
  returns the updated task.
* `sorted`/`list.sort` in Python are stable sorts by key; they are embedded
  as `List.insertionSort` (which inserts earlier elements before later,
  key-equal ones, hence is stable) with the decidable total preorder induced
  by the Python sort key.
* Constructors that `raise ValueError` are embedded as `Except String`
  valued functions.
-/

namespace PawPal

/-- Minutes in one calendar day. -/
def minutesPerDay : Int := 1440

/-- `datetime.date()`: the calendar day of a timestamp. -/
def dateOf (t : Int) : Int := Int.fdiv t minutesPerDay

/-- `class Priority(Enum)` with values High / Medium / Low. -/
inductive Priority
  | high
  | medium
  | low
deriving DecidableEq, Repr

/-- `class Frequency(Enum)` with values daily / weekly / monthly / one_time. -/
inductive Frequency
  | daily
  | weekly
  | monthly
  | one_time
deriving DecidableEq, Repr

/-- `@dataclass class Task` of `pawpal_system.py`. -/
structure Task where
  id : Int
  description : String
  duration_minutes : Int
  priority : Priority
  due_time : Option Int
  frequency : Frequency
  is_completed : Bool
  pet_name : Option String
deriving DecidableEq, Repr

/-- `Task.__post_init__` validation, embedded as a fallible constructor:
`Task(...)` raises `ValueError` iff `duration_minutes <= 0` or the
description is the empty (falsy) string. -/
def mkTask (id : Int) (description : String) (duration_minutes : Int)
    (priority : Priority) (due_time : Option Int) (frequency : Frequency)
    (is_completed : Bool) : Except String Task :=
  if duration_minutes ≤ 0 then .error "Duration must be greater than 0."
  else if description = "" then .error "Description cannot be empty."
  else .ok ⟨id, description, duration_minutes, priority, due_time, frequency,
    is_completed, none⟩

/-- `Task.mark_complete`. -/
def Task.mark_complete (t : Task) : Task := { t with is_completed := true }

/-- `Task.get_end_time`: `due_time + timedelta(minutes=duration_minutes)`. -/
def Task.get_end_time (t : Task) : Option Int :=
  match t.due_time with
  | none => none
  | some d => some (d + t.duration_minutes)

/-- `Task.overlaps_with`: false if either `due_time` is absent (a `datetime`
is always truthy, so `not self.due_time` is exactly the absence check);
otherwise `self.due_time < other_end and other_task.due_time < self_end`
where the end times are `due_time + duration_minutes`. -/
def Task.overlaps_with (t other : Task) : Bool :=
  match t.due_time, other.due_time with
  | some td, some od =>
      decide (td < od + other.duration_minutes) &&
        decide (od < td + t.duration_minutes)
  | _, _ => false

/-- `@dataclass class Pet` of `pawpal_system.py`. -/
structure Pet where
  name : String
  species : String
  age : Int
  tasks : List Task
deriving DecidableEq, Repr

/-- `Pet.__post_init__` validation: `Pet(...)` raises `ValueError` iff the
name is empty, the species is empty, or the age is negative.  A fresh pet
starts with an empty task list. -/
def mkPet (name species : String) (age : Int) : Except String Pet :=
  if name = "" then .error "Pet name cannot be empty."
  else if species = "" then .error "Species cannot be empty."
  else if age < 0 then .error "Age cannot be negative."
  else .ok ⟨name, species, age, []⟩

/-- `Pet.add_task`: stamps the task with the pet's name and appends it. -/
def Pet.add_task (p : Pet) (t : Task) : Pet :=
  { p with tasks := p.tasks ++ [{ t with pet_name := some p.name }] }

/-- `Pet.get_tasks`. -/
def Pet.get_tasks (p : Pet) : List Task := p.tasks

/-- `Pet.get_pending_tasks`. -/
def Pet.get_pending_tasks (p : Pet) : List Task :=
  p.tasks.filter (fun t => !t.is_completed)

/-- `class Owner` of `pawpal_system.py`. -/
structure Owner where
  name : String
  pets : List Pet
deriving DecidableEq, Repr

/-- `Owner.add_pet`. -/
def Owner.add_pet (o : Owner) (p : Pet) : Owner :=
  { o with pets := o.pets ++ [p] }

/-- `Owner.get_all_tasks`: the flat ordered list of `(pet_name, task)`
pairs, pets in insertion order, tasks in insertion order within each pet. -/
def Owner.get_all_tasks (o : Owner) : List (String × Task) :=
  o.pets.flatMap (fun p => p.get_tasks.map (fun t => (p.name, t)))

/-- `class Scheduler` state: a nullable bound owner and the task-ID
counter `_next_task_id`. -/
structure Scheduler where
  owner : Option Owner
  next_task_id : Int
deriving Repr

/-- `Scheduler.__init__`: no owner bound, counter starts at 1. -/
def Scheduler.init : Scheduler := ⟨none, 1⟩

/-- The maximum task id found under an owner, starting from 0, as computed
by `Scheduler._sync_task_id_counter`. -/
def Scheduler.max_task_id (o : Owner) : Int :=
  o.pets.foldl (fun m p => p.tasks.foldl (fun m t => max m t.id) m) 0

/-- `Scheduler.set_owner`: binds the owner and resyncs the counter to
`max_id + 1` (`_sync_task_id_counter`). -/
def Scheduler.set_owner (s : Scheduler) (o : Owner) : Scheduler :=
  { s with owner := some o, next_task_id := Scheduler.max_task_id o + 1 }

/-- `Scheduler.generate_task_id`: returns the counter, then increments it. -/
def Scheduler.generate_task_id (s : Scheduler) : Int × Scheduler :=
  (s.next_task_id, { s with next_task_id := s.next_task_id + 1 })

/-- `Scheduler.get_pet_by_name`: linear scan for the first pet with an
exactly matching name; `none` when no owner is bound or no pet matches. -/
def Scheduler.get_pet_by_name (s : Scheduler) (name : String) : Option Pet :=
  match s.owner with
  | none => none
  | some o => o.pets.find? (fun p => p.name == name)

/-- `Scheduler.get_all_tasks`: `[]` when no owner is bound. -/
def Scheduler.get_all_tasks (s : Scheduler) : List (String × Task) :=
  match s.owner with
  | none => []
  | some o => o.get_all_tasks

/-- Comparison along the Python sort key `(due_time is None, due_time)`:
a present time sorts before an absent one, present times chronologically,
and two absent times compare equal. -/
def optTimeLE : Option Int → Option Int → Bool
  | some x, some y => decide (x ≤ y)
  | some _, none => true
  | none, some _ => false
  | none, none => true

/-- The relation on tasks induced by the key of `sort_tasks_by_time`. -/
def timeLE (a b : Task) : Prop := optTimeLE a.due_time b.due_time = true

instance : DecidableRel timeLE := fun _ _ => by unfold timeLE; infer_instance

/-- `Scheduler.sort_tasks_by_time`: Python's `sorted` with key
`(task.due_time is None, task.due_time)`.  `sorted` is a stable sort by
key; it is embedded as the (stable) insertion sort over `timeLE`. -/
def Scheduler.sort_tasks_by_time (tasks : List Task) : List Task :=
  tasks.insertionSort timeLE

/-- The `priority_order` dict of `sort_by_priority_and_time`:
High = 0, Medium = 1, Low = 2. -/
def priority_rank : Priority → Int
  | .high => 0
  | .medium => 1
  | .low => 2

/-- The relation on tasks induced by the key
`(priority_rank, due_time is None, due_time)` of
`sort_by_priority_and_time`. -/
def prioTimeLE (a b : Task) : Prop :=
  priority_rank a.priority < priority_rank b.priority ∨
    (priority_rank a.priority = priority_rank b.priority ∧
      optTimeLE a.due_time b.due_time = true)

instance : DecidableRel prioTimeLE := fun _ _ => by unfold prioTimeLE; infer_instance

/-- `Scheduler.sort_by_priority_and_time`: Python's `sorted` with key
`(priority_order[task.priority.value], task.due_time is None,
task.due_time)`, embedded as the stable insertion sort over `prioTimeLE`. -/
def Scheduler.sort_by_priority_and_time (tasks : List Task) : List Task :=
  tasks.insertionSort prioTimeLE

/-- `Scheduler.filter_tasks`: the list comprehension over
`get_all_tasks()` keeping pairs whose pet name matches `pet_name` (when
given) and whose completion flag matches `completed` (when given), then
dropping the pet names. -/
def Scheduler.filter_tasks (s : Scheduler) (pet_name : Option String)
    (completed : Option Bool) : List Task :=
  (s.get_all_tasks.filter (fun pt =>
      (match pet_name with
       | none => true
       | some n => pt.1 == n) &&
      (match completed with
       | none => true
       | some c => pt.2.is_completed == c))).map Prod.snd

/-- The next occurrence time computed inside `complete_task`:
`due_time + timedelta(days=1) / timedelta(weeks=1) / timedelta(days=30)`
for Daily / Weekly / Monthly, and the untouched `None` for OneTime. -/
def next_due_time (freq : Frequency) (d : Int) : Option Int :=
  match freq with
  | .daily => some (d + 1440)
  | .weekly => some (d + 10080)
  | .monthly => some (d + 43200)
  | .one_time => none

/-- `pet.add_task(new_task)` performed on the pet returned by
`get_pet_by_name`: the found pet is an element of the owner's list mutated
in place, so the embedding appends the task to the first pet whose name
matches. -/
def addTaskFirstMatch (t : Task) (name : String) : List Pet → List Pet
  | [] => []
  | p :: ps =>
      if p.name == name then p.add_task t :: ps
      else p :: addTaskFirstMatch t name ps

/-- `Scheduler.complete_task`.  Marks the task complete (the in-place
mutation of the argument is returned as the middle component), returns
early for OneTime / absent due time, otherwise generates a fresh id
(incrementing the counter *before* the pet lookup), builds the replacement
task and appends it to the first pet named `pet_name`; the Bool is the
Python return value. -/
def Scheduler.complete_task (s : Scheduler) (task : Task) (pet_name : String) :
    Scheduler × Task × Bool :=
  let task := task.mark_complete
  if task.frequency = .one_time ∨ task.due_time = none then (s, task, false)
  else
    match next_due_time task.frequency (task.due_time.getD 0) with
    | none => (s, task, false)
    | some nd =>
      let idSched := s.generate_task_id
      let new_task : Task :=
        { id := idSched.1, description := task.description,
          duration_minutes := task.duration_minutes, priority := task.priority,
          due_time := some nd, frequency := task.frequency,
          is_completed := false, pet_name := none }
      let s₁ := idSched.2
      match s₁.get_pet_by_name pet_name with
      | some _ =>
          ({ s₁ with owner := s₁.owner.map (fun o =>
              { o with pets := addTaskFirstMatch new_task pet_name o.pets }) },
            task, true)
      | none => (s₁, task, false)

/-- The replacement task literal built by `complete_task`: fresh id from
the counter, identical description / duration / priority / frequency, the
computed next due time, not completed, no pet stamp yet. -/
def replacementTask (s : Scheduler) (t : Task) (nd : Int) : Task :=
  ⟨s.next_task_id, t.description, t.duration_minutes, t.priority, some nd,
    t.frequency, false, none⟩

/-- `Scheduler.check_conflicts`: true iff any existing task overlaps the
candidate, regardless of completion status. -/
def Scheduler.check_conflicts (s : Scheduler) (new_task : Task) : Bool :=
  s.get_all_tasks.any (fun pt => pt.2.overlaps_with new_task)

/-- The data interpolated into one warning string of
`detect_all_conflicts`: the conflict classification and, for each of the
two tasks, its description, owning pet name and due time (the Python code
renders the due times with `strftime`, or `"N/A"` when absent). -/
structure Conflict where
  same_pet : Bool
  description1 : String
  pet1 : String
  time1 : Option Int
  description2 : String
  pet2 : String
  time2 : Option Int
deriving DecidableEq, Repr

/-- The warning record built in the body of the inner loop of
`detect_all_conflicts`; `same_pet` is the comparison
`pet_name_1 == pet_name_2`. -/
def mkConflict (p1 p2 : String × Task) : Conflict :=
  { same_pet := p1.1 == p2.1,
    description1 := p1.2.description, pet1 := p1.1, time1 := p1.2.due_time,
    description2 := p2.2.description, pet2 := p2.1, time2 := p2.2.due_time }

/-- `Scheduler.detect_all_conflicts`: the nested loops
`for i in range(n): for j in range(i+1, n)` appending a warning whenever
neither task is completed and the two overlap. -/
def Scheduler.detect_all_conflicts (s : Scheduler) : List Conflict :=
  let all := s.get_all_tasks
  (List.range all.length).flatMap (fun i =>
    (List.range' (i + 1) (all.length - (i + 1))).filterMap (fun j =>
      match all[i]?, all[j]? with
      | some p1, some p2 =>
          if p1.2.is_completed || p2.2.is_completed then none
          else if p1.2.overlaps_with p2.2 then some (mkConflict p1 p2)
          else none
      | _, _ => none))

/-- The `priority_order` dict of `generate_daily_schedule`:
HIGH = 1, MEDIUM = 2, LOW = 3. -/
def schedPriorityOrder : Priority → Int
  | .high => 1
  | .medium => 2
  | .low => 3

/-- The relation induced by the sort key
`(priority_order[x[1].priority], x[1].due_time)` of
`generate_daily_schedule`.  Every candidate has a present due time (the
filter guarantees it), so comparing `due_time.getD 0` matches the Python
comparison of the datetimes themselves. -/
def dailyLE (a b : String × Task) : Prop :=
  schedPriorityOrder a.2.priority < schedPriorityOrder b.2.priority ∨
    (schedPriorityOrder a.2.priority = schedPriorityOrder b.2.priority ∧
      a.2.due_time.getD 0 ≤ b.2.due_time.getD 0)

instance : DecidableRel dailyLE := fun _ _ => by unfold dailyLE; infer_instance

/-- `Scheduler.generate_daily_schedule`.  The `target_date=None` default
(which uses the ambient clock) is not modelled; the caller passes the
date.  Filters the flat list to incomplete tasks with a present due time
on the target calendar date, stable-sorts by the daily key, then walks the
list greedily accumulating `used_minutes`. -/
def Scheduler.generate_daily_schedule (s : Scheduler) (available_minutes : Int)
    (target_date : Int) : List (String × Task) :=
  match s.owner with
  | none => []
  | some _ =>
    let tasks := s.get_all_tasks.filter (fun pt =>
      !pt.2.is_completed &&
        match pt.2.due_time with
        | none => false
        | some d => dateOf d == dateOf target_date)
    let sorted := tasks.insertionSort dailyLE
    (sorted.foldl (fun acc pt =>
        if acc.2 + pt.2.duration_minutes ≤ available_minutes then
          (acc.1 ++ [pt], acc.2 + pt.2.duration_minutes)
        else acc)
      ([], 0)).1

/-- `Scheduler.generate_recurring_tasks` helper: the period, in minutes, of
a recurring frequency (`timedelta(days=1)` / `timedelta(weeks=1)` /
`timedelta(days=30)`). -/
def recurrencePeriod : Frequency → Int
  | .daily => 1440
  | .weekly => 10080
  | .monthly => 43200
  | .one_time => 0

/-- The ids handed out by `k` successive calls to `generate_task_id`. -/
def Scheduler.gen_ids (s : Scheduler) : Nat → List Int
  | 0 => []
  | k + 1 =>
    let r := s.generate_task_id
    r.1 :: r.2.gen_ids k

/-- Modelled from the spec: the greedy packer of
`generate_daily_schedule`, written as the specification phrases it — walk
the sorted candidate list accumulating used minutes, including a task iff
`used_minutes + task.duration_minutes <= available_minutes`. -/
def greedyPack (available : Int) : Int → List (String × Task) → List (String × Task)
  | _, [] => []
  | used, pt :: rest =>
    if used + pt.2.duration_minutes ≤ available then
      pt :: greedyPack available (used + pt.2.duration_minutes) rest
    else greedyPack available used rest

/-- Total duration of a selection, in minutes. -/
def sumDur (l : List (String × Task)) : Int :=
  (l.map (fun pt => pt.2.duration_minutes)).sum

/-- Modelled from the spec: the pair enumeration of
`detect_all_conflicts` — all index pairs `(i, j)` with `i < j` over a list
of length `n`, in lexicographic `(i, j)` order. -/
def pairsBelow (n : Nat) : List (Nat × Nat) :=
  (List.range n).flatMap (fun i =>
    ((List.range n).filter (fun j => decide (i < j))).map (fun j => (i, j)))

/-- Modelled from the spec: the conflict records of
`detect_all_conflicts` as the specification phrases them — for each
unordered pair `(i, j)` with `i < j` over the flat task list, emit a
record iff neither task is completed and the two overlap. -/
def detectConflictsSpec (all : List (String × Task)) : List Conflict :=
  (pairsBelow all.length).filterMap (fun ij =>
    match all[ij.1]?, all[ij.2]? with
    | some p1, some p2 =>
        if ¬p1.2.is_completed ∧ ¬p2.2.is_completed ∧
            p1.2.overlaps_with p2.2 = true then
          some (mkConflict p1 p2)
        else none
    | _, _ => none)

/-- The construct-then-append flow of the UI (`app.py`): build a task with
the validating constructor and, when construction succeeds, add it to the
pet; a `ValueError` aborts before any mutation. -/
def tryAddTask (p : Pet) (id : Int) (description : String)
    (duration_minutes : Int) (priority : Priority) (due_time : Option Int)
    (frequency : Frequency) : Except String Pet :=
  (mkTask id description duration_minutes priority due_time frequency
    false).map p.add_task


/-- An owner whose pets already hold the task ids 1, 2 and 5. -/
def demoOwner : Owner :=
  ⟨"Demo",
    [⟨"Rocky", "Dog", 3,
       [⟨1, "walk", 30, .high, none, .one_time, false, some "Rocky"⟩,
        ⟨2, "feed", 15, .medium, none, .daily, false, some "Rocky"⟩]⟩,
     ⟨"Milo", "Cat", 2,
       [⟨5, "groom", 20, .low, none, .weekly, false, some "Milo"⟩]⟩]⟩

/-- A scheduler bound to `demoOwner`. -/
def demoSched : Scheduler := Scheduler.init.set_owner demoOwner

/-- A concrete recurring task due at minute 600 of day 0. -/
def demoTask : Task := ⟨2, "feed", 15, .medium, some 600, .daily, false, some "Rocky"⟩

/-- An owner with no pets. -/
def emptyOwner : Owner := ⟨"A", []⟩

/-- Two tasks at the same time for the same pet. -/
def clashT1 : Task := ⟨1, "walk", 30, .high, some 540, .one_time, false, some "Rex"⟩

/-- Second of the two clashing tasks. -/
def clashT2 : Task := ⟨2, "vet", 45, .medium, some 540, .one_time, false, some "Rex"⟩

/-- A pet named Rex with no tasks. -/
def rexPet : Pet := ⟨"Rex", "Dog", 4, []⟩

/-- An owner whose single pet holds the two clashing tasks. -/
def clashOwner : Owner := ⟨"B", [⟨"Rex", "Dog", 4, [clashT1, clashT2]⟩]⟩

/-- A scheduler bound to `clashOwner`. -/
def clashSched : Scheduler := Scheduler.init.set_owner clashOwner

/-! ## The sort relations are decidable total preorders -/

instance : IsTotal Task timeLE := by
  constructor
  intro a b
  unfold timeLE
  rcases a.due_time with _ | x <;> rcases b.due_time with _ | y
  all_goals simp only [optTimeLE, decide_eq_true_eq]
  all_goals first
    | exact Or.inl (by trivial)
    | exact Or.inr (by trivial)
    | exact le_total x y

instance : IsTrans Task timeLE := by
  constructor
  intro a b c hab hbc
  unfold timeLE at hab hbc ⊢
  revert hab hbc
  rcases a.due_time with _ | x <;> rcases b.due_time with _ | y <;>
    rcases c.due_time with _ | z
  all_goals intro h1 h2
  all_goals simp only [optTimeLE, decide_eq_true_eq] at *
  all_goals first
    | trivial
    | omega

instance : IsTotal Task prioTimeLE := by
  constructor
  intro a b
  unfold prioTimeLE
  rcases lt_trichotomy (priority_rank a.priority) (priority_rank b.priority) with h | h | h
  · exact Or.inl (Or.inl h)
  · rcases a.due_time with _ | x <;> rcases b.due_time with _ | y
    all_goals simp only [optTimeLE, decide_eq_true_eq]
    · exact Or.inl (Or.inr ⟨h, by trivial⟩)
    · exact Or.inr (Or.inr ⟨h.symm, by trivial⟩)
    · exact Or.inl (Or.inr ⟨h, by trivial⟩)
    · rcases le_total x y with ht | ht
      · exact Or.inl (Or.inr ⟨h, ht⟩)
      · exact Or.inr (Or.inr ⟨h.symm, ht⟩)
  · exact Or.inr (Or.inl h)

instance : IsTrans Task prioTimeLE := by
  constructor
  intro a b c hab hbc
  unfold prioTimeLE at hab hbc ⊢
  rcases hab with h₁ | ⟨h₁, t₁⟩ <;> rcases hbc with h₂ | ⟨h₂, t₂⟩
  · exact Or.inl (h₁.trans h₂)
  · exact Or.inl (h₂ ▸ h₁)
  · exact Or.inl (h₁ ▸ h₂)
  · refine Or.inr ⟨h₁.trans h₂, ?_⟩
    revert t₁ t₂
    rcases a.due_time with _ | x <;> rcases b.due_time with _ | y <;>
      rcases c.due_time with _ | z
    all_goals intro t₁ t₂
    all_goals simp only [optTimeLE, decide_eq_true_eq] at *
    all_goals first
      | trivial
      | omega

instance : IsTotal (String × Task) dailyLE := by
  constructor
  intro a b
  unfold dailyLE
  rcases lt_trichotomy (schedPriorityOrder a.2.priority) (schedPriorityOrder b.2.priority)
    with h | h | h
  · exact Or.inl (Or.inl h)
  · rcases le_total (a.2.due_time.getD 0) (b.2.due_time.getD 0) with ht | ht
    · exact Or.inl (Or.inr ⟨h, ht⟩)
    · exact Or.inr (Or.inr ⟨h.symm, ht⟩)
  · exact Or.inr (Or.inl h)

instance : IsTrans (String × Task) dailyLE := by
  constructor
  intro a b c hab hbc
  unfold dailyLE at hab hbc ⊢
  rcases hab with h₁ | ⟨h₁, t₁⟩ <;> rcases hbc with h₂ | ⟨h₂, t₂⟩
  · exact Or.inl (h₁.trans h₂)
  · exact Or.inl (h₂ ▸ h₁)
  · exact Or.inl (h₁ ▸ h₂)
  · exact Or.inr ⟨h₁.trans h₂, t₁.trans t₂⟩

/-! ## General lemmas about the stable insertion sort -/

variable {α : Type}

theorem orderedInsert_forall (r : α → α → Prop) [DecidableRel r] {a : α} :
    ∀ {m : List α}, (∀ c ∈ m, r a c) → m.orderedInsert r a = a :: m
  | [], _ => rfl
  | b :: m, h => by
    simp only [List.orderedInsert, if_pos (h b (List.mem_cons_self b m))]

theorem filter_orderedInsert_pos (r : α → α → Prop) [DecidableRel r] (p : α → Bool) {a : α}
    (ha : p a = true) (h : ∀ b, p b = true → r a b) :
    ∀ l : List α, (l.orderedInsert r a).filter p = a :: l.filter p
  | [] => by simp [List.orderedInsert, ha]
  | b :: l => by
    by_cases hab : r a b
    · simp only [List.orderedInsert, if_pos hab]
      rw [List.filter_cons_of_pos ha]
    · have hb : p b = false := by
        cases hpb : p b
        · rfl
        · exact absurd (h b hpb) hab
      simp only [List.orderedInsert, if_neg hab]
      rw [List.filter_cons_of_neg (by simp [hb]), List.filter_cons_of_neg (by simp [hb])]
      exact filter_orderedInsert_pos r p ha h l

theorem filter_orderedInsert_neg (r : α → α → Prop) [DecidableRel r] (p : α → Bool) {a : α}
    (ha : p a = false) :
    ∀ l : List α, (l.orderedInsert r a).filter p = l.filter p
  | [] => by simp [List.orderedInsert, ha]
  | b :: l => by
    by_cases hab : r a b
    · simp only [List.orderedInsert, if_pos hab]
      rw [List.filter_cons_of_neg (by simp [ha])]
    · simp only [List.orderedInsert, if_neg hab]
      cases hb : p b
      · rw [List.filter_cons_of_neg (by simp [hb]), List.filter_cons_of_neg (by simp [hb])]
        exact filter_orderedInsert_neg r p ha l
      · rw [List.filter_cons_of_pos hb, List.filter_cons_of_pos hb]
        rw [filter_orderedInsert_neg r p ha l]

/-- Stability of the insertion sort: filtering by a predicate whose
holders are pairwise related (for example, "has this exact sort key")
returns them in input order. -/
theorem filter_insertionSort_congr (r : α → α → Prop) [DecidableRel r] (p : α → Bool)
    (hp : ∀ a b, p a = true → p b = true → r a b) :
    ∀ l : List α, (l.insertionSort r).filter p = l.filter p
  | [] => rfl
  | a :: l => by
    simp only [List.insertionSort]
    cases ha : p a
    · rw [filter_orderedInsert_neg r p ha, filter_insertionSort_congr r p hp l,
        List.filter_cons_of_neg (by simp [ha])]
    · rw [filter_orderedInsert_pos r p ha (fun b hb => hp a b ha hb),
        filter_insertionSort_congr r p hp l, List.filter_cons_of_pos ha]

theorem filter_orderedInsert_sorted (r : α → α → Prop) [DecidableRel r] [IsTrans α r]
    (p : α → Bool) {a : α} (ha : p a = true) :
    ∀ {m : List α}, m.Sorted r → (m.orderedInsert r a).filter p =
      (m.filter p).orderedInsert r a
  | [], _ => by simp [List.orderedInsert, ha]
  | b :: m, hs => by
    have hsm : m.Sorted r := hs.of_cons
    by_cases hab : r a b
    · simp only [List.orderedInsert, if_pos hab]
      rw [List.filter_cons_of_pos ha]
      cases hb : p b
      · rw [List.filter_cons_of_neg (by simp [hb])]
        refine (orderedInsert_forall r fun c hc => ?_).symm
        exact IsTrans.trans a b c hab
          (List.rel_of_sorted_cons hs c (List.mem_of_mem_filter hc))
      · rw [List.filter_cons_of_pos hb]
        simp only [List.orderedInsert, if_pos hab]
    · simp only [List.orderedInsert, if_neg hab]
      cases hb : p b
      · rw [List.filter_cons_of_neg (by simp [hb]), List.filter_cons_of_neg (by simp [hb])]
        exact filter_orderedInsert_sorted r p ha hsm
      · rw [List.filter_cons_of_pos hb, List.filter_cons_of_pos hb]
        simp only [List.orderedInsert, if_neg hab]
        rw [filter_orderedInsert_sorted r p ha hsm]

/-- A stable sort commutes with any filter. -/
theorem filter_insertionSort_comm (r : α → α → Prop) [DecidableRel r]
    [IsTotal α r] [IsTrans α r] (p : α → Bool) :
    ∀ l : List α, (l.insertionSort r).filter p = (l.filter p).insertionSort r
  | [] => rfl
  | a :: l => by
    simp only [List.insertionSort]
    cases ha : p a
    · rw [filter_orderedInsert_neg r p ha, filter_insertionSort_comm r p l,
        List.filter_cons_of_neg (by simp [ha])]
    · rw [filter_orderedInsert_sorted r p ha (List.sorted_insertionSort r l),
        filter_insertionSort_comm r p l, List.filter_cons_of_pos ha]
      rfl

theorem orderedInsert_rel_congr (r s : α → α → Prop) [DecidableRel r] [DecidableRel s] {a : α} :
    ∀ {m : List α}, (∀ b ∈ m, (r a b ↔ s a b)) →
      m.orderedInsert r a = m.orderedInsert s a
  | [], _ => rfl
  | b :: m, h => by
    have hb : r a b ↔ s a b := h b (List.mem_cons_self b m)
    by_cases hab : r a b
    · simp only [List.orderedInsert, if_pos hab, if_pos (hb.mp hab)]
    · simp only [List.orderedInsert, if_neg hab, if_neg (fun hs => hab (hb.mpr hs))]
      rw [orderedInsert_rel_congr r s (fun c hc => h c (List.mem_cons_of_mem b hc))]

/-- Two sort relations that agree on the elements of a list sort it
identically. -/
theorem insertionSort_rel_congr (r s : α → α → Prop) [DecidableRel r] [DecidableRel s] :
    ∀ {l : List α}, (∀ a ∈ l, ∀ b ∈ l, (r a b ↔ s a b)) →
      l.insertionSort r = l.insertionSort s
  | [], _ => rfl
  | a :: l, h => by
    simp only [List.insertionSort]
    rw [insertionSort_rel_congr r s
      (fun x hx y hy => h x (List.mem_cons_of_mem a hx) y (List.mem_cons_of_mem a hy))]
    exact orderedInsert_rel_congr r s (fun b hb =>
      h a (List.mem_cons_self a l) b
        (List.mem_cons_of_mem a ((List.perm_insertionSort s l).mem_iff.mp hb)))

/-- Reflexivity of the optional-time comparison. -/
theorem optTimeLE_refl : ∀ x, optTimeLE x x = true
  | none => rfl
  | some x => by simp [optTimeLE]

/-! ## Claim theorems -/

/-- C3: `overlaps_with` returns false whenever either side's `due_time` is
absent; when both are present it returns true iff
`a.due_time < b.end_time` and `b.due_time < a.end_time`, strictly on both
sides, so a task starting exactly when the other ends does not overlap it;
and it is symmetric. -/
theorem overlaps_with_spec (a b : Task) :
    ((a.due_time = none ∨ b.due_time = none) → a.overlaps_with b = false)
    ∧ (∀ x y xe ye, a.due_time = some x → b.due_time = some y →
        a.get_end_time = some xe → b.get_end_time = some ye →
        ((a.overlaps_with b = true ↔ x < ye ∧ y < xe)
          ∧ (y = xe → a.overlaps_with b = false)))
    ∧ a.overlaps_with b = b.overlaps_with a := by
  refine ⟨?_, ?_, ?_⟩
  · rintro (h | h) <;>
      rcases ha : a.due_time with _ | x <;> rcases hb : b.due_time with _ | y <;>
      simp_all [Task.overlaps_with]
  · intro x y xe ye hx hy hxe hye
    have hxe' : xe = x + a.duration_minutes := by
      simp [Task.get_end_time, hx] at hxe
      omega
    have hye' : ye = y + b.duration_minutes := by
      simp [Task.get_end_time, hy] at hye
      omega
    subst hxe' hye'
    constructor
    · simp [Task.overlaps_with, hx, hy]
    · intro hback
      simp only [Task.overlaps_with, hx, hy]
      have : ¬ y < x + a.duration_minutes := by rw [hback]; exact lt_irrefl _
      simp [this]
  · rcases ha : a.due_time with _ | x <;> rcases hb : b.due_time with _ | y <;>
      simp [Task.overlaps_with, ha, hb, Bool.and_comm]

/-- C5: `sort_tasks_by_time` is a stable sort by the key
`(due_time is absent, due_time)`: the output is a permutation of the
input, sorted so that timed tasks come chronologically before all untimed
ones, and tasks sharing a `due_time` value (or all untimed) keep their
input order. -/
theorem sort_tasks_by_time_spec (l : List Task) :
    (Scheduler.sort_tasks_by_time l).Perm l
    ∧ (Scheduler.sort_tasks_by_time l).Sorted timeLE
    ∧ (∀ a b : Task, timeLE a b ↔
        (b.due_time = none ∨ ∃ x y, a.due_time = some x ∧ b.due_time = some y ∧ x ≤ y))
    ∧ (∀ c : Option Int,
        (Scheduler.sort_tasks_by_time l).filter (fun t => decide (t.due_time = c)) =
          l.filter (fun t => decide (t.due_time = c))) := by
  refine ⟨List.perm_insertionSort timeLE l, List.sorted_insertionSort timeLE l, ?_, ?_⟩
  · intro a b
    unfold timeLE
    rcases ha : a.due_time with _ | x <;> rcases hb : b.due_time with _ | y <;>
      simp [optTimeLE]
  · intro c
    apply filter_insertionSort_congr
    intro a b hpa hpb
    have ha : a.due_time = c := by simpa using hpa
    have hb : b.due_time = c := by simpa using hpb
    unfold timeLE
    rw [ha, hb]
    exact optTimeLE_refl c

/-- C6: `sort_by_priority_and_time` is a stable sort by the key
`(priority_rank, due_time is absent, due_time)` with High = 0 < Medium = 1
< Low = 2, and restricted to the tasks of any single priority tier it
produces exactly the ordering of `sort_tasks_by_time` on that
subsequence. -/
theorem sort_by_priority_and_time_spec (l : List Task) :
    (Scheduler.sort_by_priority_and_time l).Perm l
    ∧ (Scheduler.sort_by_priority_and_time l).Sorted prioTimeLE
    ∧ (priority_rank .high = 0 ∧ priority_rank .medium = 1 ∧ priority_rank .low = 2)
    ∧ (∀ a b : Task, prioTimeLE a b ↔
        (priority_rank a.priority < priority_rank b.priority ∨
          (priority_rank a.priority = priority_rank b.priority ∧ timeLE a b)))
    ∧ (∀ (rk : Int) (c : Option Int),
        (Scheduler.sort_by_priority_and_time l).filter
            (fun t => decide (priority_rank t.priority = rk) && decide (t.due_time = c)) =
          l.filter
            (fun t => decide (priority_rank t.priority = rk) && decide (t.due_time = c)))
    ∧ (∀ p : Priority,
        (Scheduler.sort_by_priority_and_time l).filter (fun t => t.priority == p) =
          Scheduler.sort_tasks_by_time (l.filter (fun t => t.priority == p))) := by
  refine ⟨List.perm_insertionSort prioTimeLE l, List.sorted_insertionSort prioTimeLE l,
    ⟨rfl, rfl, rfl⟩, fun a b => Iff.rfl, ?_, ?_⟩
  · intro rk c
    apply filter_insertionSort_congr
    intro a b hpa hpb
    simp only [Bool.and_eq_true, decide_eq_true_eq] at hpa hpb
    unfold prioTimeLE
    right
    refine ⟨hpa.1.trans hpb.1.symm, ?_⟩
    rw [hpa.2, hpb.2]
    exact optTimeLE_refl c
  · intro p
    unfold Scheduler.sort_by_priority_and_time Scheduler.sort_tasks_by_time
    rw [filter_insertionSort_comm prioTimeLE]
    apply insertionSort_rel_congr
    intro a ha b hb
    have hpa : a.priority = p := by
      have := (List.mem_filter.mp ha).2
      simpa using this
    have hpb : b.priority = p := by
      have := (List.mem_filter.mp hb).2
      simpa using this
    have hrk : priority_rank a.priority = priority_rank b.priority := by rw [hpa, hpb]
    unfold prioTimeLE timeLE
    constructor
    · rintro (h | ⟨_, h⟩)
      · rw [hrk] at h
        exact absurd h (lt_irrefl _)
      · exact h
    · intro h
      exact Or.inr ⟨hrk, h⟩

/-- C8: `filter_tasks` returns the subsequence of `get_all_tasks()` in
baseline order whose entries satisfy the conjunction of the optional
filters; omitting both returns every task, and no match or no bound owner
yields `[]`. -/
theorem filter_tasks_spec (s : Scheduler) :
    (∀ pn c, List.Sublist (s.filter_tasks pn c) (s.get_all_tasks.map Prod.snd))
    ∧ (s.filter_tasks none none = s.get_all_tasks.map Prod.snd)
    ∧ (s.owner = none → ∀ pn c, s.filter_tasks pn c = [])
    ∧ (∀ pn c t, t ∈ s.filter_tasks pn c ↔
        ∃ pet, (pet, t) ∈ s.get_all_tasks ∧
          (∀ n, pn = some n → pet = n) ∧ (∀ b, c = some b → t.is_completed = b)) := by
  refine ⟨?_, ?_, ?_, ?_⟩
  · intro pn c
    exact (List.filter_sublist _).map Prod.snd
  · simp [Scheduler.filter_tasks]
  · intro h pn c
    simp [Scheduler.filter_tasks, Scheduler.get_all_tasks, h]
  · intro pn c t
    simp only [Scheduler.filter_tasks, List.mem_map, List.mem_filter]
    constructor
    · rintro ⟨⟨pet, t'⟩, ⟨hmem, hcond⟩, rfl⟩
      simp only [Bool.and_eq_true] at hcond
      refine ⟨pet, hmem, ?_, ?_⟩
      · intro n hn
        rw [hn] at hcond
        exact eq_of_beq hcond.1
      · intro b hb
        rw [hb] at hcond
        exact eq_of_beq hcond.2
    · rintro ⟨pet, hmem, h1, h2⟩
      refine ⟨(pet, t), ⟨hmem, ?_⟩, rfl⟩
      simp only [Bool.and_eq_true]
      constructor
      · cases pn with
        | none => rfl
        | some n => exact beq_iff_eq.mpr (h1 n rfl)
      · cases c with
        | none => rfl
        | some b => exact beq_iff_eq.mpr (h2 b rfl)

/-- C9: `Task` construction fails with a `ValueError` iff
`duration_minutes <= 0` or the description is empty, `Pet` construction
fails iff the name or species is empty or the age is negative — both
synchronously, at construction — and a failed construction propagates the
error without touching any container (the construct-then-append flow
returns the error and no modified pet). -/
theorem construction_validation_spec :
    (∀ (id : Int) (descr : String) (dur : Int) (prio : Priority) (due : Option Int)
        (freq : Frequency) (comp : Bool),
        (∃ t, mkTask id descr dur prio due freq comp = .ok t) ↔ (0 < dur ∧ descr ≠ ""))
    ∧ (∀ (name species : String) (age : Int),
        (∃ p, mkPet name species age = .ok p) ↔ (name ≠ "" ∧ species ≠ "" ∧ 0 ≤ age))
    ∧ (∀ (pet : Pet) (id : Int) (descr : String) (dur : Int) (prio : Priority)
        (due : Option Int) (freq : Frequency) (e : String),
        mkTask id descr dur prio due freq false = .error e →
          tryAddTask pet id descr dur prio due freq = .error e) := by
  refine ⟨?_, ?_, ?_⟩
  · intro id descr dur prio due freq comp
    unfold mkTask
    split_ifs with h1 h2
    · refine iff_of_false ?_ ?_
      · rintro ⟨t, ht⟩
        exact ht
      · rintro ⟨hd, _⟩
        omega
    · refine iff_of_false ?_ ?_
      · rintro ⟨t, ht⟩
        exact ht
      · rintro ⟨_, hd⟩
        exact hd h2
    · exact iff_of_true ⟨_, rfl⟩ ⟨by omega, h2⟩
  · intro name species age
    unfold mkPet
    split_ifs with h1 h2 h3
    · refine iff_of_false ?_ ?_
      · rintro ⟨p, hp⟩
        exact hp
      · rintro ⟨h, _⟩
        exact h h1
    · refine iff_of_false ?_ ?_
      · rintro ⟨p, hp⟩
        exact hp
      · rintro ⟨_, h, _⟩
        exact h h2
    · refine iff_of_false ?_ ?_
      · rintro ⟨p, hp⟩
        exact hp
      · rintro ⟨_, _, h⟩
        omega
    · exact iff_of_true ⟨_, rfl⟩ ⟨h1, h2, by omega⟩
  · intro pet id descr dur prio due freq e h
    unfold tryAddTask
    rw [h]
    rfl

theorem foldl_max_init_le (ts : List Task) :
    ∀ acc : Int, acc ≤ ts.foldl (fun m t => max m t.id) acc := by
  induction ts with
  | nil => intro acc; exact le_refl _
  | cons t ts ih =>
    intro acc
    exact le_trans (le_max_left acc t.id) (ih (max acc t.id))

theorem le_foldl_max (ts : List Task) (t : Task) (ht : t ∈ ts) :
    ∀ acc : Int, t.id ≤ ts.foldl (fun m t => max m t.id) acc := by
  induction ts with
  | nil => cases ht
  | cons u ts ih =>
    intro acc
    rcases List.mem_cons.mp ht with rfl | ht'
    · exact le_trans (le_max_right acc t.id) (foldl_max_init_le ts _)
    · exact ih ht' _

theorem pets_foldl_init_le (ps : List Pet) :
    ∀ acc : Int,
      acc ≤ ps.foldl (fun m p => p.tasks.foldl (fun m t => max m t.id) m) acc := by
  induction ps with
  | nil => intro acc; exact le_refl _
  | cons p ps ih =>
    intro acc
    exact le_trans (foldl_max_init_le p.tasks acc) (ih _)

theorem le_pets_foldl (ps : List Pet) (p : Pet) (t : Task) (hp : p ∈ ps) (ht : t ∈ p.tasks) :
    ∀ acc : Int,
      t.id ≤ ps.foldl (fun m p => p.tasks.foldl (fun m t => max m t.id) m) acc := by
  induction ps with
  | nil => cases hp
  | cons q ps ih =>
    intro acc
    rcases List.mem_cons.mp hp with rfl | hp'
    · exact le_trans (le_foldl_max p.tasks t ht acc) (pets_foldl_init_le ps _)
    · exact ih hp' _

/-- Every task attached to the owner has id at most `max_task_id`. -/
theorem max_task_id_ge (o : Owner) :
    ∀ pt ∈ o.get_all_tasks, pt.2.id ≤ Scheduler.max_task_id o := by
  intro pt hpt
  unfold Owner.get_all_tasks at hpt
  simp only [List.mem_flatMap, List.mem_map, Pet.get_tasks] at hpt
  obtain ⟨p, hp, t, ht, rfl⟩ := hpt
  exact le_pets_foldl o.pets p t hp ht 0

theorem max_task_id_empty (o : Owner) (h : o.get_all_tasks = []) :
    Scheduler.max_task_id o = 0 := by
  have hpets : ∀ p ∈ o.pets, p.tasks = [] := by
    intro p hp
    rcases hpt : p.tasks with _ | ⟨t, ts⟩
    · rfl
    · exfalso
      have hmem : (p.name, t) ∈ o.get_all_tasks := by
        unfold Owner.get_all_tasks
        simp only [List.mem_flatMap, List.mem_map, Pet.get_tasks]
        exact ⟨p, hp, t, by simp [hpt]⟩
      rw [h] at hmem
      cases hmem
  unfold Scheduler.max_task_id
  have : ∀ (ps : List Pet), (∀ p ∈ ps, p.tasks = []) → ∀ acc : Int,
      ps.foldl (fun m p => p.tasks.foldl (fun m t => max m t.id) m) acc = acc := by
    intro ps
    induction ps with
    | nil => intro _ acc; rfl
    | cons q ps ih =>
      intro hq acc
      have hqt : q.tasks = [] := hq q (List.mem_cons_self q ps)
      simp only [List.foldl_cons, hqt, List.foldl_nil]
      exact ih (fun p hp => hq p (List.mem_cons_of_mem q hp)) acc
  exact this o.pets hpets 0

/-- The stream of generated ids is `next_task_id, next_task_id + 1, ...`. -/
theorem gen_ids_eq (s : Scheduler) :
    ∀ k : Nat, s.gen_ids k = (List.range k).map (fun (j : Nat) => s.next_task_id + (j : Int))
  | 0 => rfl
  | k + 1 => by
    simp only [Scheduler.gen_ids, Scheduler.generate_task_id]
    rw [gen_ids_eq _ k, List.range_succ_eq_map]
    simp only [List.map_cons, List.map_map, Nat.cast_zero, add_zero]
    refine congrArg (List.cons s.next_task_id) ?_
    apply List.map_congr_left
    intro j _
    simp only [Function.comp_apply]
    push_cast
    ring

/-- C7: `set_owner` resyncs the id counter to the maximum existing task id
plus one (1 when there are no tasks); the ids subsequently handed out by
`generate_task_id` are strictly increasing and never collide with an id
present at binding time; and binding to an owner holding ids 1, 2, 5 makes
the next generated id 6. -/
theorem set_owner_id_spec :
    (∀ (s : Scheduler) (o : Owner),
      ((s.set_owner o).next_task_id = Scheduler.max_task_id o + 1)
      ∧ (o.get_all_tasks = [] → (s.set_owner o).next_task_id = 1)
      ∧ (∀ pt ∈ o.get_all_tasks, pt.2.id < (s.set_owner o).next_task_id)
      ∧ (∀ k, (s.set_owner o).gen_ids k =
          (List.range k).map (fun (j : Nat) => Scheduler.max_task_id o + 1 + (j : Int)))
      ∧ (∀ k, ((s.set_owner o).gen_ids k).Pairwise (· < ·))
      ∧ (∀ k, ∀ i ∈ (s.set_owner o).gen_ids k, ∀ pt ∈ o.get_all_tasks, i ≠ pt.2.id))
    ∧ ((Scheduler.init.set_owner demoOwner).generate_task_id.1 = 6) := by
  refine ⟨fun s o => ⟨rfl, ?_, ?_, ?_, ?_, ?_⟩, by decide⟩
  · intro h
    show Scheduler.max_task_id o + 1 = 1
    rw [max_task_id_empty o h]
    omega
  · intro pt hpt
    have := max_task_id_ge o pt hpt
    show pt.2.id < Scheduler.max_task_id o + 1
    omega
  · intro k
    exact gen_ids_eq _ k
  · intro k
    rw [gen_ids_eq]
    refine List.Pairwise.map _ ?_ (List.pairwise_lt_range k)
    intro a b hab
    show (s.set_owner o).next_task_id + (a : Int) < (s.set_owner o).next_task_id + (b : Int)
    omega
  · intro k i hi pt hpt
    rw [gen_ids_eq] at hi
    simp only [List.mem_map, List.mem_range] at hi
    obtain ⟨j, _, rfl⟩ := hi
    have hle := max_task_id_ge o pt hpt
    show ¬ Scheduler.max_task_id o + 1 + (j : Int) = pt.2.id
    omega

/-- When some pet matches, `addTaskFirstMatch` appends the task to the
first matching pet and leaves every other pet unchanged. -/
theorem addTaskFirstMatch_split (t : Task) (name : String) :
    ∀ {ps : List Pet}, (∃ p ∈ ps, p.name = name) →
      ∃ ps₁ p ps₂, ps = ps₁ ++ p :: ps₂ ∧ p.name = name ∧
        (∀ q ∈ ps₁, q.name ≠ name) ∧
        addTaskFirstMatch t name ps = ps₁ ++ p.add_task t :: ps₂
  | [], h => absurd h (by simp)
  | q :: ps, h => by
    by_cases hq : q.name = name
    · exact ⟨[], q, ps, rfl, hq, by simp, by simp [addTaskFirstMatch, hq]⟩
    · obtain ⟨p, hp, hpname⟩ := h
      rcases List.mem_cons.mp hp with rfl | hp'
      · exact absurd hpname hq
      · obtain ⟨ps₁, p', ps₂, heq, hname, hnone, happ⟩ :=
          addTaskFirstMatch_split t name ⟨p, hp', hpname⟩
        refine ⟨q :: ps₁, p', ps₂, by rw [heq]; rfl, hname, ?_, ?_⟩
        · intro r hr
          rcases List.mem_cons.mp hr with rfl | hr'
          · exact hq
          · exact hnone r hr'
        · have hqb : (q.name == name) = false := by simp [hq]
          simp only [addTaskFirstMatch, hqb, Bool.false_eq_true, if_false, happ]
          rfl

/-- `get_pet_by_name` succeeds exactly when a pet with that name exists
under the bound owner. -/
theorem get_pet_by_name_some_iff (s : Scheduler) (o : Owner) (pn : String)
    (ho : s.owner = some o) :
    (∃ p, s.get_pet_by_name pn = some p) ↔ ∃ p ∈ o.pets, p.name = pn := by
  have hrw : s.get_pet_by_name pn = o.pets.find? (fun q => q.name == pn) := by
    unfold Scheduler.get_pet_by_name
    rw [ho]
  rw [hrw]
  constructor
  · rintro ⟨p, hp⟩
    have hbeq : (p.name == pn) = true := by simpa using List.find?_some hp
    exact ⟨p, List.mem_of_find?_eq_some hp, eq_of_beq hbeq⟩
  · rintro ⟨p, hp, hname⟩
    have hsome : (o.pets.find? (fun q => q.name == pn)).isSome := by
      rw [List.find?_isSome]
      exact ⟨p, hp, by simp [hname]⟩
    rcases hfind : o.pets.find? (fun q => q.name == pn) with _ | q
    · rw [hfind] at hsome
      cases hsome
    · exact ⟨q, hfind⟩

/-- Evaluation of `complete_task` for a recurring task with a present due
time: the id counter is bumped before the pet lookup, and the replacement
task is appended to the first matching pet when one exists. -/
theorem complete_task_eq (s : Scheduler) (t : Task) (pn : String) (d nd : Int)
    (hd : t.due_time = some d) (hnd : next_due_time t.frequency d = some nd) :
    s.complete_task t pn =
      (match s.get_pet_by_name pn with
       | some _ =>
          (⟨s.owner.map (fun o =>
              { o with pets := addTaskFirstMatch (replacementTask s t nd) pn o.pets }),
            s.next_task_id + 1⟩, t.mark_complete, true)
       | none => (⟨s.owner, s.next_task_id + 1⟩, t.mark_complete, false)) := by
  have hfreq : t.frequency ≠ .one_time := by
    intro h
    rw [h] at hnd
    cases hnd
  have hcond : ¬ ((t.mark_complete).frequency = .one_time ∨
      (t.mark_complete).due_time = none) := by
    rintro (h | h)
    · exact hfreq h
    · rw [show (t.mark_complete).due_time = t.due_time from rfl, hd] at h
      cases h
  have hgetd : (t.mark_complete).due_time.getD 0 = d := by
    rw [show (t.mark_complete).due_time = t.due_time from rfl, hd]
    rfl
  show (let task := t.mark_complete
    if task.frequency = .one_time ∨ task.due_time = none then (s, task, false)
    else
      match next_due_time task.frequency (task.due_time.getD 0) with
      | none => (s, task, false)
      | some nd =>
        let idSched := s.generate_task_id
        let new_task : Task :=
          { id := idSched.1, description := task.description,
            duration_minutes := task.duration_minutes, priority := task.priority,
            due_time := some nd, frequency := task.frequency,
            is_completed := false, pet_name := none }
        let s₁ := idSched.2
        match s₁.get_pet_by_name pn with
        | some _ =>
            ({ s₁ with owner := s₁.owner.map (fun o =>
                { o with pets := addTaskFirstMatch new_task pn o.pets }) },
              task, true)
        | none => (s₁, task, false)) = _
  have hcond' : ¬ (t.frequency = .one_time ∨ (t.mark_complete).due_time = none) := by
    rintro (h | h)
    · exact hfreq h
    · rw [show (t.mark_complete).due_time = t.due_time from rfl, hd] at h
      cases h
  simp only [hgetd, show (t.mark_complete).frequency = t.frequency from rfl, hnd]
  have hpet : ((s.generate_task_id).2).get_pet_by_name pn = s.get_pet_by_name pn := rfl
  rcases hfind : s.get_pet_by_name pn with _ | p <;>
    simp only [hpet, hfind] <;> rw [if_neg hcond'] <;> rfl

/-- C10: completing a recurring task with a present due time whose named
pet does not exist returns false, changes no pet's task list, leaves the
owner untouched, yet still increments the task-ID counter (the fresh id
is generated before the pet lookup), while the original task is returned
marked complete. -/
theorem complete_task_missing_pet (s : Scheduler) (t : Task) (pn : String) (d : Int)
    (hd : t.due_time = some d) (hf : t.frequency ≠ .one_time)
    (hmiss : s.get_pet_by_name pn = none) :
    (s.complete_task t pn).2.2 = false
    ∧ (s.complete_task t pn).1.owner = s.owner
    ∧ (s.complete_task t pn).1.next_task_id = s.next_task_id + 1
    ∧ (s.complete_task t pn).2.1 = { t with is_completed := true } := by
  obtain ⟨nd, hnd⟩ : ∃ nd, next_due_time t.frequency d = some nd := by
    cases hfq : t.frequency
    · exact ⟨d + 1440, rfl⟩
    · exact ⟨d + 10080, rfl⟩
    · exact ⟨d + 43200, rfl⟩
    · exact absurd hfq hf
  rw [complete_task_eq s t pn d nd hd hnd, hmiss]
  exact ⟨rfl, rfl, rfl, rfl⟩

/-- `complete_task` always returns the argument task marked complete,
whatever else happens. -/
theorem complete_task_marks (s : Scheduler) (t : Task) (pn : String) :
    (s.complete_task t pn).2.1 = { t with is_completed := true } := by
  simp only [Scheduler.complete_task]
  by_cases hc : (t.mark_complete).frequency = .one_time ∨ (t.mark_complete).due_time = none
  · rw [if_pos hc]
    rfl
  · rw [if_neg hc]
    rcases hm : next_due_time (t.mark_complete).frequency
        ((t.mark_complete).due_time.getD 0) with _ | nd
    · simp only [hm]
      rfl
    · simp only [hm]
      rcases hf : ((s.generate_task_id).2).get_pet_by_name pn with _ | p <;>
        simp only [hf] <;> rfl

/-- `complete_task` on a OneTime task or one with an absent due time just
marks it complete and returns false, with the scheduler untouched. -/
theorem complete_task_one_time (s : Scheduler) (t : Task) (pn : String)
    (hc : t.frequency = .one_time ∨ t.due_time = none) :
    s.complete_task t pn = (s, t.mark_complete, false) := by
  simp only [Scheduler.complete_task]
  have hc' : (t.mark_complete).frequency = .one_time ∨
      (t.mark_complete).due_time = none := hc
  rw [if_pos hc']

/-- C1: for a recurring task with a present due time, `complete_task`
marks the task complete and returns true iff a pet named `pet_name`
exists under the bound owner, in which case exactly one new task — with a
fresh id distinct from the original's, the same description, duration,
priority and frequency, a due time offset by 1 / 7 / 30 days, and
`is_completed = false` — is appended to the first pet of that name; for a
OneTime task or one with an absent due time it returns false and appends
nothing, while still marking the original complete. -/
theorem complete_task_spec (s : Scheduler) (o : Owner) (t : Task) (pn : String)
    (ho : s.owner = some o) (hid : t.id < s.next_task_id) :
    ((s.complete_task t pn).2.1 = { t with is_completed := true })
    ∧ ((t.frequency = .one_time ∨ t.due_time = none) →
        ((s.complete_task t pn).2.2 = false ∧ (s.complete_task t pn).1 = s))
    ∧ (∀ d, t.due_time = some d → t.frequency ≠ .one_time →
        ∃ off, ((t.frequency = .daily ∧ off = 1440) ∨
                (t.frequency = .weekly ∧ off = 10080) ∨
                (t.frequency = .monthly ∧ off = 43200))
          ∧ (replacementTask s t (d + off)).id ≠ t.id
          ∧ (replacementTask s t (d + off)).is_completed = false
          ∧ (((s.complete_task t pn).2.2 = true) ↔ ∃ p ∈ o.pets, p.name = pn)
          ∧ ((s.complete_task t pn).1.next_task_id = s.next_task_id + 1)
          ∧ ((s.complete_task t pn).2.2 = false →
              (s.complete_task t pn).1.owner = some o)
          ∧ ((s.complete_task t pn).2.2 = true →
              ∃ ps₁ p ps₂, o.pets = ps₁ ++ p :: ps₂ ∧ p.name = pn
                ∧ (∀ q ∈ ps₁, q.name ≠ pn)
                ∧ (s.complete_task t pn).1.owner = some { o with pets := ps₁ ++
                    { p with tasks := p.tasks ++
                      [{ replacementTask s t (d + off) with
                          pet_name := some pn }] } :: ps₂ })) := by
  refine ⟨complete_task_marks s t pn, ?_, ?_⟩
  · intro hc
    rw [complete_task_one_time s t pn hc]
    exact ⟨rfl, rfl⟩
  · intro d hd hfreq
    obtain ⟨off, hoff, hnd⟩ : ∃ off : Int,
        ((t.frequency = .daily ∧ off = 1440) ∨
         (t.frequency = .weekly ∧ off = 10080) ∨
         (t.frequency = .monthly ∧ off = 43200))
        ∧ next_due_time t.frequency d = some (d + off) := by
      rcases hfq : t.frequency
      · exact ⟨1440, Or.inl ⟨rfl, rfl⟩, by rw [next_due_time]⟩
      · exact ⟨10080, Or.inr (Or.inl ⟨rfl, rfl⟩), by rw [next_due_time]⟩
      · exact ⟨43200, Or.inr (Or.inr ⟨rfl, rfl⟩), by rw [next_due_time]⟩
      · exact absurd hfq hfreq
    have heq := complete_task_eq s t pn d (d + off) hd hnd
    refine ⟨off, hoff, ?_, rfl, ?_, ?_, ?_, ?_⟩
    · show s.next_task_id ≠ t.id
      omega
    · rw [heq]
      rcases hfind : s.get_pet_by_name pn with _ | p
      · simp only [hfind]
        constructor
        · intro hff
          cases hff
        · intro hex
          obtain ⟨q, hq⟩ := (get_pet_by_name_some_iff s o pn ho).mpr hex
          rw [hfind] at hq
          cases hq
      · simp only [hfind]
        constructor
        · intro _
          exact (get_pet_by_name_some_iff s o pn ho).mp ⟨p, hfind⟩
        · intro _
          trivial
    · rw [heq]
      rcases hfind : s.get_pet_by_name pn with _ | p <;> simp only [hfind]
    · rw [heq]
      rcases hfind : s.get_pet_by_name pn with _ | p <;> simp only [hfind]
      · intro _
        exact ho
      · intro hff
        cases hff
    · rw [heq]
      rcases hfind : s.get_pet_by_name pn with _ | p <;> simp only [hfind]
      · intro hff
        cases hff
      · intro _
        have hex : ∃ q ∈ o.pets, q.name = pn :=
          (get_pet_by_name_some_iff s o pn ho).mp ⟨p, hfind⟩
        obtain ⟨ps₁, q, ps₂, hsplit, hname, hno, happ⟩ :=
          addTaskFirstMatch_split (replacementTask s t (d + off)) pn hex
        refine ⟨ps₁, q, ps₂, hsplit, hname, hno, ?_⟩
        show (s.owner.map fun o =>
            { o with pets :=
                addTaskFirstMatch (replacementTask s t (d + off)) pn o.pets }) = _
        rw [ho]
        simp only [Option.map_some', happ, Option.some.injEq]
        refine congrArg (fun ps => Owner.mk o.name ps) ?_
        refine congrArg (fun q' => ps₁ ++ q' :: ps₂) ?_
        simp [Pet.add_task, hname]

/-- The accumulator loop of `generate_daily_schedule` is the spec's greedy
packer. -/
theorem foldl_greedy (avail : Int) :
    ∀ (l : List (String × Task)) (acc : List (String × Task)) (used : Int),
      (l.foldl (fun acc pt =>
          if acc.2 + pt.2.duration_minutes ≤ avail then
            (acc.1 ++ [pt], acc.2 + pt.2.duration_minutes)
          else acc) (acc, used)).1 = acc ++ greedyPack avail used l
  | [], acc, used => by simp [greedyPack]
  | pt :: l, acc, used => by
    simp only [List.foldl_cons, greedyPack]
    by_cases h : used + pt.2.duration_minutes ≤ avail
    · rw [if_pos h, if_pos h, foldl_greedy avail l]
      simp
    · rw [if_neg h, if_neg h, foldl_greedy avail l]

theorem greedyPack_sum (avail : Int) :
    ∀ (l : List (String × Task)) (used : Int),
      greedyPack avail used l = [] ∨ used + sumDur (greedyPack avail used l) ≤ avail
  | [], _ => Or.inl rfl
  | pt :: l, used => by
    simp only [greedyPack]
    by_cases h : used + pt.2.duration_minutes ≤ avail
    · rw [if_pos h]
      right
      rcases greedyPack_sum avail l (used + pt.2.duration_minutes) with he | hle
      · rw [he]
        simp only [sumDur, List.map_cons, List.map_nil, List.sum_cons, List.sum_nil]
        omega
      · simp only [sumDur, List.map_cons, List.sum_cons] at hle ⊢
        omega
    · rw [if_neg h]
      exact greedyPack_sum avail l used

theorem greedyPack_sublist (avail : Int) :
    ∀ (l : List (String × Task)) (used : Int),
      List.Sublist (greedyPack avail used l) l
  | [], _ => List.Sublist.refl []
  | pt :: l, used => by
    simp only [greedyPack]
    by_cases h : used + pt.2.duration_minutes ≤ avail
    · rw [if_pos h]
      exact List.Sublist.cons₂ pt (greedyPack_sublist avail l _)
    · rw [if_neg h]
      exact List.Sublist.cons pt (greedyPack_sublist avail l used)

/-- C2 counterexample: with a bound owner and the negative budget
`available_minutes = -1`, the selection is empty, so its summed duration
0 exceeds `available_minutes` — the unrestricted claim is false. -/
theorem generate_daily_schedule_neg_budget :
    (Scheduler.init.set_owner emptyOwner).owner = some emptyOwner
    ∧ (Scheduler.init.set_owner emptyOwner).generate_daily_schedule (-1) 0 = []
    ∧ ¬ (sumDur ((Scheduler.init.set_owner emptyOwner).generate_daily_schedule
          (-1) 0) ≤ -1) := by
  refine ⟨rfl, rfl, ?_⟩
  decide

/-- C2 (amended): under a bound owner, `generate_daily_schedule` equals
the greedy packer run over the candidate list — exactly the incomplete
tasks whose present due time falls on the target calendar date — sorted
in ascending (priority rank, due time) order with High first; the
selection is a subsequence of that sorted list, and whenever
`available_minutes` is nonnegative its summed duration never exceeds
`available_minutes` (for a negative budget the empty selection's zero sum
already exceeds it, per the counterexample). -/
theorem generate_daily_schedule_spec (s : Scheduler) (o : Owner) (avail td : Int)
    (ho : s.owner = some o) :
    ∃ c : List (String × Task),
      s.generate_daily_schedule avail td = greedyPack avail 0 c
      ∧ c.Sorted dailyLE
      ∧ (schedPriorityOrder .high = 1 ∧ schedPriorityOrder .medium = 2 ∧
          schedPriorityOrder .low = 3)
      ∧ c.Perm (s.get_all_tasks.filter (fun pt =>
          !pt.2.is_completed && pt.2.due_time.any (fun d => dateOf d == dateOf td)))
      ∧ (∀ pt, pt ∈ c ↔ pt ∈ s.get_all_tasks ∧ pt.2.is_completed = false ∧
          ∃ d, pt.2.due_time = some d ∧ dateOf d = dateOf td)
      ∧ List.Sublist (s.generate_daily_schedule avail td) c
      ∧ (0 ≤ avail → sumDur (s.generate_daily_schedule avail td) ≤ avail) := by
  have hmain : s.generate_daily_schedule avail td =
      greedyPack avail 0 ((s.get_all_tasks.filter (fun pt =>
        !pt.2.is_completed &&
          match pt.2.due_time with
          | none => false
          | some d => dateOf d == dateOf td)).insertionSort dailyLE) := by
    simp only [Scheduler.generate_daily_schedule, ho]
    rw [foldl_greedy]
    exact List.nil_append _
  refine ⟨_, hmain, List.sorted_insertionSort dailyLE _, ⟨rfl, rfl, rfl⟩, ?_, ?_, ?_, ?_⟩
  case _ =>
    refine (List.perm_insertionSort dailyLE _).trans ?_
    refine List.Perm.of_eq (List.filter_congr ?_)
    intro pt _
    rcases pt.2.due_time with _ | d <;> rfl
  case _ =>
    intro pt
    rw [List.mem_insertionSort, List.mem_filter]
    constructor
    · rintro ⟨hmem, hcond⟩
      simp only [Bool.and_eq_true, Bool.not_eq_eq_eq_not, Bool.not_true] at hcond
      rcases hdue : pt.2.due_time with _ | d
      · rw [hdue] at hcond
        exact absurd hcond.2 (by simp)
      · rw [hdue] at hcond
        refine ⟨hmem, by simpa using hcond.1, d, rfl, ?_⟩
        simpa using hcond.2
    · rintro ⟨hmem, hcomp, d, hdue, hdate⟩
      refine ⟨hmem, ?_⟩
      rw [hdue]
      simp [hcomp, hdate]
  case _ =>
    rw [hmain]
    exact greedyPack_sublist avail _ 0
  case _ =>
    intro hpos
    rw [hmain]
    rcases greedyPack_sum avail ((s.get_all_tasks.filter (fun pt =>
        !pt.2.is_completed &&
          match pt.2.due_time with
          | none => false
          | some d => dateOf d == dateOf td)).insertionSort dailyLE) 0 with he | hle
    · rw [he]
      simpa [sumDur] using hpos
    · omega

theorem filterMap_flatMap' {α β γ : Type} (l : List α) (f : α → List β)
    (g : β → Option γ) :
    (l.flatMap f).filterMap g = l.flatMap (fun a => (f a).filterMap g) := by
  induction l with
  | nil => rfl
  | cons a l ih => simp [List.flatMap_cons, List.filterMap_append, ih]

theorem flatMap_congr' {α β : Type} {l : List α} {f g : α → List β}
    (h : ∀ a ∈ l, f a = g a) : l.flatMap f = l.flatMap g := by
  induction l with
  | nil => rfl
  | cons a l ih =>
    simp only [List.flatMap_cons, h a (List.mem_cons_self a l)]
    rw [ih fun x hx => h x (List.mem_cons_of_mem a hx)]

theorem filterMap_congr' {α β : Type} {l : List α} {f g : α → Option β}
    (h : ∀ a ∈ l, f a = g a) : l.filterMap f = l.filterMap g := by
  induction l with
  | nil => rfl
  | cons a l ih =>
    simp only [List.filterMap_cons, h a (List.mem_cons_self a l)]
    rw [ih fun x hx => h x (List.mem_cons_of_mem a hx)]

/-- The indices strictly above `i` in `range n` form the contiguous block
`range' (i+1) (n-(i+1))` that the inner loop of `detect_all_conflicts`
walks. -/
theorem filter_range_lt (i : Nat) :
    ∀ n : Nat, (List.range n).filter (fun j => decide (i < j)) =
      List.range' (i + 1) (n - (i + 1))
  | 0 => by simp
  | n + 1 => by
    rw [List.range_succ, List.filter_append, filter_range_lt i n]
    by_cases h : i < n
    · have h1 : (n + 1) - (i + 1) = (n - (i + 1)) + 1 := by omega
      rw [h1, List.range'_concat]
      have h2 : i + 1 + 1 * (n - (i + 1)) = n := by omega
      rw [h2]
      simp [h]
    · have h0 : n - (i + 1) = 0 := by omega
      have h1 : (n + 1) - (i + 1) = 0 := by omega
      rw [h0, h1]
      simp [h]

/-- The two styles of guarding the emitted record agree: skipping
completed pairs then testing the overlap is the single spec condition. -/
theorem conflict_emit_eq (p1 p2 : String × Task) :
    (if p1.2.is_completed || p2.2.is_completed then none
     else if p1.2.overlaps_with p2.2 then some (mkConflict p1 p2) else none) =
      (if ¬p1.2.is_completed ∧ ¬p2.2.is_completed ∧
          p1.2.overlaps_with p2.2 = true then some (mkConflict p1 p2)
       else none) := by
  cases h1 : p1.2.is_completed <;> cases h2 : p2.2.is_completed <;>
    cases hov : p1.2.overlaps_with p2.2 <;> simp [h1, h2, hov]

/-- C4: `detect_all_conflicts` emits one record per unordered pair
`(i, j)` with `i < j` over the flat task list where neither task is
completed and the windows overlap, in pair-enumeration order; each record
carries both descriptions, pet names and due times and is classified
same-pet exactly when the two pet names are equal. -/
theorem detect_all_conflicts_spec (s : Scheduler) :
    s.detect_all_conflicts = detectConflictsSpec s.get_all_tasks
    ∧ (∀ c ∈ s.detect_all_conflicts, (c.same_pet = true ↔ c.pet1 = c.pet2)) := by
  have hmain : s.detect_all_conflicts = detectConflictsSpec s.get_all_tasks := by
    unfold Scheduler.detect_all_conflicts detectConflictsSpec pairsBelow
    rw [filterMap_flatMap']
    refine flatMap_congr' fun i _ => ?_
    rw [List.filterMap_map, filter_range_lt i s.get_all_tasks.length]
    refine filterMap_congr' fun j _ => ?_
    simp only [Function.comp_apply]
    rcases h1 : s.get_all_tasks[i]? with _ | p1 <;>
      rcases h2 : s.get_all_tasks[j]? with _ | p2 <;>
      simp only []
    exact conflict_emit_eq p1 p2
  refine ⟨hmain, ?_⟩
  intro c hc
  unfold Scheduler.detect_all_conflicts at hc
  simp only [List.mem_flatMap, List.mem_filterMap] at hc
  obtain ⟨i, _, j, _, hcj⟩ := hc
  rcases h1 : s.get_all_tasks[i]? with _ | p1
  · simp only [h1] at hcj
    cases hcj
  rcases h2 : s.get_all_tasks[j]? with _ | p2
  · simp only [h1, h2] at hcj
    cases hcj
  simp only [h1, h2] at hcj
  split at hcj
  · cases hcj
  · split at hcj
    · obtain rfl : mkConflict p1 p2 = c := Option.some.inj hcj
      simp [mkConflict]
    · cases hcj

/-! ## Witnesses at concrete inputs -/

/-- Witness for the completion theorem at a concrete bound scheduler. -/
theorem complete_task_spec_witness :
    demoSched.owner = some demoOwner ∧ demoTask.id < demoSched.next_task_id ∧
    (demoSched.complete_task demoTask "Rocky").2.1 =
      { demoTask with is_completed := true } :=
  ⟨rfl, by decide,
    (complete_task_spec demoSched demoOwner demoTask "Rocky" rfl (by decide)).1⟩

/-- Witness for the daily-schedule theorem at a concrete bound scheduler
and a nonnegative budget. -/
theorem generate_daily_schedule_spec_witness :
    sumDur (demoSched.generate_daily_schedule 60 0) ≤ 60 := by
  obtain ⟨c, -, -, -, -, -, -, hsum⟩ :=
    generate_daily_schedule_spec demoSched demoOwner 60 0 rfl
  exact hsum (by decide)

/-- Witness for the missing-pet frame theorem at a concrete scheduler whose
owner has no pet named Ziggy. -/
theorem complete_task_missing_pet_witness :
    (demoSched.complete_task demoTask "Ziggy").2.2 = false
    ∧ (demoSched.complete_task demoTask "Ziggy").1.next_task_id =
        demoSched.next_task_id + 1 :=
  ⟨(complete_task_missing_pet demoSched demoTask "Ziggy" 600 rfl (by decide)
      (by decide)).1,
    (complete_task_missing_pet demoSched demoTask "Ziggy" 600 rfl (by decide)
      (by decide)).2.2.1⟩

end PawPal
